import Mathlib

/-!
Verification of the word-scoring function of the repository
`js-tdd-writing-unit-tests` (file `src/utils.js`).

The JavaScript source is

  export function pointsForWord(word) {
    let points = 0;
    for (const char of word) {
      points += /[aeiou]/i.test(char) ? 1 : 2;
    }
    return points;
  }

A JavaScript string is a finite sequence of UTF-16 code units; we embed it
as `List Nat` (each entry is one code unit, a value below 2^16 on real
inputs, though none of the development depends on that bound outside the
surrogate ranges).  `for (const char of word)` iterates the string by
Unicode code point: a high surrogate immediately followed by a low
surrogate is yielded as one two-code-unit character, every other code unit
as a one-code-unit character.  `/[aeiou]/i.test(char)` searches the
character's code units for one that matches the class `[aeiou]` under
ECMA-262 ignore-case (non-Unicode-mode) canonicalisation.
-/

/-- A code unit in the high-surrogate range D800–DBFF. -/
def isHighSurrogate (cu : Nat) : Bool :=
  decide (0xD800 ≤ cu ∧ cu ≤ 0xDBFF)

/-- A code unit in the low-surrogate range DC00–DFFF. -/
def isLowSurrogate (cu : Nat) : Bool :=
  decide (0xDC00 ≤ cu ∧ cu ≤ 0xDFFF)

/-- ECMA-262 string iteration (`for (const char of word)`): split a list of
UTF-16 code units into characters, pairing a high surrogate with an
immediately following low surrogate and yielding every other code unit on
its own.  Each character is returned as its list of code units. -/
def forOf : List Nat → List (List Nat)
  | [] => []
  | [cu] => [[cu]]
  | cu1 :: cu2 :: rest =>
    if isHighSurrogate cu1 && isLowSurrogate cu2 then
      [cu1, cu2] :: forOf rest
    else
      [cu1] :: forOf (cu2 :: rest)

/-- ECMA-262 `Canonicalize` for an ignore-case, non-Unicode-mode pattern,
specialised to what the character class `[aeiou]` can match: an ASCII
lower-case letter canonicalises to its upper-case form; any other ASCII
code unit is its own canonical form; and a code unit at or above 128 never
canonicalises to a code unit below 128 (Canonicalize step 3.e discards
such mappings), so for membership in an ASCII character class it can be
taken as itself. -/
def canonicalize (cu : Nat) : Nat :=
  if 97 ≤ cu ∧ cu ≤ 122 then cu - 32 else cu

/-- `/[aeiou]/i.test(s)`: the regular expression searches `s` for a code
unit whose canonical form is one of the (canonicalised) class members
A, E, I, O, U. -/
def vowelRegexTest (s : List Nat) : Bool :=
  s.any fun cu => decide (canonicalize cu ∈ ([65, 69, 73, 79, 85] : List Nat))

/-- `pointsForWord` from `src/utils.js`: fold over the characters yielded
by `for...of`, adding 1 for a character matched by `/[aeiou]/i` and 2 for
any other character. -/
def pointsForWord (word : List Nat) : Nat :=
  (forOf word).foldl (fun points ch => points + (if vowelRegexTest ch then 1 else 2)) 0

/-- UTF-16 encoding of one Unicode code point: a code point below 2^16 is
one code unit; a supplementary code point becomes a surrogate pair. -/
def utf16Encode (cp : Nat) : List Nat :=
  if cp < 0x10000 then [cp]
  else [0xD800 + (cp - 0x10000) / 0x400, 0xDC00 + (cp - 0x10000) % 0x400]

/-- The JavaScript string holding a given sequence of characters (Unicode
code points): the concatenation of their UTF-16 encodings. -/
def encodeWord (w : List Nat) : List Nat :=
  (w.map utf16Encode).flatten

/-- `w` is a sequence of characters: every entry is a Unicode scalar value
(a code point below 110000 hex that is not a surrogate). -/
def IsWord (w : List Nat) : Prop :=
  ∀ cp ∈ w, cp < 0x110000 ∧ ¬(0xD800 ≤ cp ∧ cp ≤ 0xDFFF)

/-- The ten code points matched by `/[aeiou]/i`: the five lower-case ASCII
vowels and their five upper-case forms. -/
def vowels10 : List Nat := [97, 101, 105, 111, 117, 65, 69, 73, 79, 85]

instance : DecidablePred IsWord := fun w =>
  decidable_of_iff (∀ cp ∈ w, cp < 0x110000 ∧ ¬(0xD800 ≤ cp ∧ cp ≤ 0xDFFF)) Iff.rfl

/-- The score the implementation assigns to one character: 1 for the ten
code points matched by `/[aeiou]/i`, 2 for every other character. -/
def charScore (cp : Nat) : Nat := if cp ∈ vowels10 then 1 else 2

lemma forOf_cons_of_not_high (cu : Nat) (l : List Nat) (h : isHighSurrogate cu = false) :
    forOf (cu :: l) = [cu] :: forOf l := by
  cases l with
  | nil => rfl
  | cons cu2 rest => simp [forOf, h]

lemma forOf_surrogate_pair (cu1 cu2 : Nat) (l : List Nat)
    (h1 : isHighSurrogate cu1 = true) (h2 : isLowSurrogate cu2 = true) :
    forOf (cu1 :: cu2 :: l) = [cu1, cu2] :: forOf l := by
  simp [forOf, h1, h2]

lemma forOf_encodeWord (w : List Nat) (h : IsWord w) :
    forOf (encodeWord w) = w.map utf16Encode := by
  induction w with
  | nil => rfl
  | cons cp rest ih =>
    have hcp := h cp (List.mem_cons_self _ _)
    have hrest : IsWord rest := fun c hc => h c (List.mem_cons_of_mem _ hc)
    by_cases hbmp : cp < 0x10000
    · have henc : encodeWord (cp :: rest) = cp :: encodeWord rest := by
        simp [encodeWord, utf16Encode, hbmp]
      rw [henc, forOf_cons_of_not_high, ih hrest]
      · simp [utf16Encode, hbmp]
      · simp only [isHighSurrogate, decide_eq_false_iff_not]
        omega
    · have henc : encodeWord (cp :: rest) =
          (0xD800 + (cp - 0x10000) / 0x400) ::
            (0xDC00 + (cp - 0x10000) % 0x400) :: encodeWord rest := by
        simp [encodeWord, utf16Encode, hbmp]
      rw [henc, forOf_surrogate_pair, ih hrest]
      · simp [utf16Encode, hbmp]
      · simp only [isHighSurrogate, decide_eq_true_eq]
        omega
      · simp only [isLowSurrogate, decide_eq_true_eq]
        omega

lemma foldl_points (l : List (List Nat)) (a : Nat) :
    l.foldl (fun points ch => points + (if vowelRegexTest ch then 1 else 2)) a =
      a + (l.map fun ch => if vowelRegexTest ch then 1 else 2).sum := by
  induction l generalizing a with
  | nil => simp
  | cons ch rest ih => simp [List.foldl_cons, ih, Nat.add_assoc]

lemma canonicalize_vowel_iff (cu : Nat) :
    canonicalize cu ∈ ([65, 69, 73, 79, 85] : List Nat) ↔ cu ∈ vowels10 := by
  unfold canonicalize
  by_cases h : 97 ≤ cu ∧ cu ≤ 122
  · rw [if_pos h]
    simp only [vowels10, List.mem_cons, List.not_mem_nil, or_false]
    omega
  · rw [if_neg h]
    simp only [vowels10, List.mem_cons, List.not_mem_nil, or_false]
    omega

lemma vowelRegexTest_utf16 (cp : Nat) (h1 : cp < 0x110000) :
    vowelRegexTest (utf16Encode cp) = true ↔ cp ∈ vowels10 := by
  by_cases hbmp : cp < 0x10000
  · rw [utf16Encode, if_pos hbmp]
    simp only [vowelRegexTest, List.any_cons, List.any_nil, Bool.or_false, decide_eq_true_eq,
      canonicalize_vowel_iff]
  · rw [utf16Encode, if_neg hbmp]
    have hhi : ¬ ((0xD800 + (cp - 0x10000) / 0x400) ∈ vowels10) := by
      simp only [vowels10, List.mem_cons, List.not_mem_nil, or_false]
      omega
    have hlo : ¬ ((0xDC00 + (cp - 0x10000) % 0x400) ∈ vowels10) := by
      simp only [vowels10, List.mem_cons, List.not_mem_nil, or_false]
      omega
    have hcp10 : ¬ (cp ∈ vowels10) := by
      simp only [vowels10, List.mem_cons, List.not_mem_nil, or_false]
      omega
    simp only [vowelRegexTest, List.any_cons, List.any_nil, Bool.or_false, Bool.or_eq_true,
      decide_eq_true_eq, canonicalize_vowel_iff]
    constructor
    · rintro (hmem | hmem)
      · exact absurd hmem hhi
      · exact absurd hmem hlo
    · intro hmem
      exact absurd hmem hcp10

lemma pointsForWord_encodeWord (w : List Nat) (h : IsWord w) :
    pointsForWord (encodeWord w) = (w.map charScore).sum := by
  unfold pointsForWord
  rw [forOf_encodeWord w h, foldl_points, Nat.zero_add, List.map_map]
  apply congrArg List.sum
  apply List.map_congr_left
  intro cp hcp
  have hc := h cp hcp
  have hiff := vowelRegexTest_utf16 cp hc.1
  simp only [Function.comp_apply, charScore]
  by_cases hv : cp ∈ vowels10
  · rw [if_pos (hiff.mpr hv), if_pos hv]
  · rw [if_neg, if_neg hv]
    intro hx
    exact hv (hiff.mp hx)

/-- Modelled from the spec: the case-invariance property refers to "the
language's string case conversions", which are not code of this
repository.  JavaScript `String.prototype.toLowerCase` applies the Unicode
full lowercase mapping code point by code point; this embedding includes
the mapping for every code point the development evaluates it on, namely
the ASCII range, where it is exactly the ASCII case map.  Code points
whose mapping is not listed are returned unchanged. -/
def toLowerCase (s : List Nat) : List Nat :=
  s.map fun cp => if 65 ≤ cp ∧ cp ≤ 90 then cp + 32 else cp

/-- Modelled from the spec: JavaScript `String.prototype.toUpperCase`,
the Unicode full uppercase mapping applied code point by code point; this
embedding includes the mapping for every code point the development
evaluates it on: the ASCII range (the ASCII case map) and U+0131 LATIN
SMALL LETTER DOTLESS I, whose Unicode uppercase mapping is U+0049 "I".
Code points whose mapping is not listed are returned unchanged. -/
def toUpperCase (s : List Nat) : List Nat :=
  s.map fun cp =>
    if 97 ≤ cp ∧ cp ≤ 122 then cp - 32
    else if cp = 0x131 then 0x49
    else cp

/-- The score of one character as the specification words it: 1 if the
character, lower-cased, is one of a, e, i, o, u; else 2. -/
def specCharScore (cp : Nat) : Nat :=
  if toLowerCase [cp] ∈ ([[97], [101], [105], [111], [117]] : List (List Nat)) then 1 else 2

lemma specCharScore_eq_charScore (cp : Nat) : specCharScore cp = charScore cp := by
  have hiff : toLowerCase [cp] ∈ ([[97], [101], [105], [111], [117]] : List (List Nat)) ↔
      cp ∈ vowels10 := by
    simp only [toLowerCase, List.map_cons, List.map_nil, List.mem_cons, List.not_mem_nil,
      or_false, List.cons.injEq, and_true, vowels10]
    by_cases h : 65 ≤ cp ∧ cp ≤ 90
    · rw [if_pos h]
      omega
    · rw [if_neg h]
      omega
  unfold specCharScore charScore
  by_cases hv : cp ∈ vowels10
  · rw [if_pos (hiff.mpr hv), if_pos hv]
  · rw [if_neg (fun hx => hv (hiff.mp hx)), if_neg hv]

/-- C1: for every word `w` (a sequence of zero or more characters),
`pointsForWord w` equals the sum over the characters of `w` of 1 if the
character, lower-cased, is one of a, e, i, o, u, and 2 otherwise. -/
theorem pointsForWord_eq_sum_specCharScore (w : List Nat) (h : IsWord w) :
    pointsForWord (encodeWord w) = (w.map specCharScore).sum := by
  rw [pointsForWord_encodeWord w h]
  apply congrArg List.sum
  apply List.map_congr_left
  intro cp _
  exact (specCharScore_eq_charScore cp).symm

/-- Witness for C1 at the word "test". -/
theorem pointsForWord_eq_sum_specCharScore_witness :
    IsWord [116, 101, 115, 116] ∧
      pointsForWord (encodeWord [116, 101, 115, 116]) =
        ([116, 101, 115, 116].map specCharScore).sum :=
  ⟨by decide, pointsForWord_eq_sum_specCharScore [116, 101, 115, 116] (by decide)⟩

lemma charScore_congr (a b : Nat) (hab : a ∈ vowels10 ↔ b ∈ vowels10) :
    charScore a = charScore b := by
  unfold charScore
  by_cases hv : b ∈ vowels10
  · rw [if_pos (hab.mpr hv), if_pos hv]
  · rw [if_neg (fun hx => hv (hab.mp hx)), if_neg hv]

lemma pointsForWord_encode_map_congr (f : Nat → Nat) (w : List Nat) (hw : IsWord w)
    (hwf : IsWord (w.map f)) (hf : ∀ cp ∈ w, (f cp ∈ vowels10 ↔ cp ∈ vowels10)) :
    pointsForWord (encodeWord (w.map f)) = pointsForWord (encodeWord w) := by
  rw [pointsForWord_encodeWord _ hwf, pointsForWord_encodeWord _ hw, List.map_map]
  apply congrArg List.sum
  apply List.map_congr_left
  intro cp hcp
  exact charScore_congr _ _ (hf cp hcp)

/-- C2 counterexample: the claim as stated — for every word `w`, the score
equals the score of `lower(w)` and of `upper(w)`, `lower` and `upper` being
the language's string case conversions — fails at the one-character word
U+0131 (LATIN SMALL LETTER DOTLESS I): that word scores 2, but its
upper-case form is "I", which scores 1. -/
theorem pointsForWord_case_invariance_fails :
    ¬ (∀ w : List Nat, IsWord w →
        pointsForWord (encodeWord w) = pointsForWord (encodeWord (toLowerCase w)) ∧
        pointsForWord (encodeWord w) = pointsForWord (encodeWord (toUpperCase w))) := by
  intro hall
  have h := (hall [0x131] (by decide)).2
  exact absurd h (by decide)

/-- C2 (amended): for every word all of whose characters are ASCII (code
points below 128), the score is invariant under the language's case
conversions; in particular `pointsForWord "tEsT" = 7` and "E" and "e" both
score 1. -/
theorem pointsForWord_case_invariant_ascii (w : List Nat) (h : ∀ cp ∈ w, cp < 128) :
    pointsForWord (encodeWord w) = pointsForWord (encodeWord (toLowerCase w)) ∧
    pointsForWord (encodeWord w) = pointsForWord (encodeWord (toUpperCase w)) ∧
    pointsForWord (encodeWord [116, 69, 115, 84]) = 7 ∧
    pointsForWord (encodeWord [69]) = 1 ∧ pointsForWord (encodeWord [101]) = 1 := by
  have hw : IsWord w := fun cp hcp => by
    have := h cp hcp
    omega
  have hlw : IsWord (toLowerCase w) := fun cp hcp => by
    simp only [toLowerCase, List.mem_map] at hcp
    obtain ⟨c, hc, hceq⟩ := hcp
    have := h c hc
    subst hceq
    by_cases h2 : 65 ≤ c ∧ c ≤ 90
    · rw [if_pos h2]
      omega
    · rw [if_neg h2]
      omega
  have huw : IsWord (toUpperCase w) := fun cp hcp => by
    simp only [toUpperCase, List.mem_map] at hcp
    obtain ⟨c, hc, hceq⟩ := hcp
    have := h c hc
    subst hceq
    by_cases h2 : 97 ≤ c ∧ c ≤ 122
    · rw [if_pos h2]
      omega
    · rw [if_neg h2, if_neg (by omega : ¬ c = 0x131)]
      omega
  have hfl : ∀ cp ∈ w, ((if 65 ≤ cp ∧ cp ≤ 90 then cp + 32 else cp) ∈ vowels10 ↔
      cp ∈ vowels10) := by
    intro cp _
    by_cases h2 : 65 ≤ cp ∧ cp ≤ 90
    · rw [if_pos h2]
      simp only [vowels10, List.mem_cons, List.not_mem_nil, or_false]
      omega
    · rw [if_neg h2]
  have hfu : ∀ cp ∈ w,
      ((if 97 ≤ cp ∧ cp ≤ 122 then cp - 32 else if cp = 0x131 then 0x49 else cp) ∈ vowels10 ↔
        cp ∈ vowels10) := by
    intro cp hcp
    have := h cp hcp
    by_cases h2 : 97 ≤ cp ∧ cp ≤ 122
    · rw [if_pos h2]
      simp only [vowels10, List.mem_cons, List.not_mem_nil, or_false]
      omega
    · rw [if_neg h2, if_neg (by omega : ¬ cp = 0x131)]
  refine ⟨(pointsForWord_encode_map_congr _ w hw hlw hfl).symm,
    (pointsForWord_encode_map_congr _ w hw huw hfu).symm, by decide, by decide, by decide⟩

/-- Witness for the amended C2 at the word "tEsT". -/
theorem pointsForWord_case_invariant_ascii_witness :
    (∀ cp ∈ ([116, 69, 115, 84] : List Nat), cp < 128) ∧
      pointsForWord (encodeWord ([116, 69, 115, 84] : List Nat)) =
        pointsForWord (encodeWord (toLowerCase [116, 69, 115, 84])) :=
  ⟨by decide, (pointsForWord_case_invariant_ascii [116, 69, 115, 84] (by decide)).1⟩

/-- C3: for any two character sequences `w1` and `w2`, the score of their
concatenation is the sum of their scores. -/
theorem pointsForWord_additive (w1 w2 : List Nat) (h1 : IsWord w1) (h2 : IsWord w2) :
    pointsForWord (encodeWord w1 ++ encodeWord w2) =
      pointsForWord (encodeWord w1) + pointsForWord (encodeWord w2) ∧
    pointsForWord (encodeWord (w1 ++ w2)) =
      pointsForWord (encodeWord w1) + pointsForWord (encodeWord w2) := by
  have h12 : IsWord (w1 ++ w2) := fun cp hcp => by
    rcases List.mem_append.mp hcp with hc | hc
    · exact h1 cp hc
    · exact h2 cp hc
  have henc : encodeWord (w1 ++ w2) = encodeWord w1 ++ encodeWord w2 := by
    simp [encodeWord]
  have hsum : pointsForWord (encodeWord (w1 ++ w2)) =
      pointsForWord (encodeWord w1) + pointsForWord (encodeWord w2) := by
    rw [pointsForWord_encodeWord _ h12, pointsForWord_encodeWord _ h1,
      pointsForWord_encodeWord _ h2, List.map_append, List.sum_append]
  exact ⟨henc ▸ hsum, hsum⟩

/-- Witness for C3 at w1 = "te", w2 = "st". -/
theorem pointsForWord_additive_witness :
    IsWord [116, 101] ∧ IsWord [115, 116] ∧
      pointsForWord (encodeWord ([116, 101] ++ [115, 116])) =
        pointsForWord (encodeWord [116, 101]) + pointsForWord (encodeWord [115, 116]) :=
  ⟨by decide, by decide,
    (pointsForWord_additive [116, 101] [115, 116] (by decide) (by decide)).2⟩

lemma sum_charScore_le (w : List Nat) :
    (w.map charScore).sum ≤ 2 * w.length ∧
      ((w.map charScore).sum = 2 * w.length ↔ ∀ cp ∈ w, cp ∉ vowels10) := by
  induction w with
  | nil => simp
  | cons a rest ih =>
    have h1 : charScore a ≤ 2 := by
      unfold charScore
      split <;> omega
    have h2 : (charScore a = 2) ↔ a ∉ vowels10 := by
      unfold charScore
      by_cases hv : a ∈ vowels10
      · rw [if_pos hv]
        simp [hv]
      · rw [if_neg hv]
        simp [hv]
    constructor
    · simp only [List.map_cons, List.sum_cons, List.length_cons]
      have := ih.1
      omega
    · simp only [List.map_cons, List.sum_cons, List.length_cons, List.mem_cons]
      constructor
      · intro heq
        have hle := ih.1
        have hc2 : charScore a = 2 := by omega
        have hr : (rest.map charScore).sum = 2 * rest.length := by omega
        intro c hc
        rcases hc with rfl | hc
        · exact h2.mp hc2
        · exact (ih.2.mp hr) c hc
      · intro hall
        have hc2 : charScore a = 2 := h2.mpr (hall a (Or.inl rfl))
        have hr : (rest.map charScore).sum = 2 * rest.length :=
          ih.2.mpr (fun c hc => hall c (Or.inr hc))
        omega

/-- C4: for every word `w`, the score lies between 0 and twice the number
of characters, and it equals twice the number of characters exactly when
`w` contains no vowel character. -/
theorem pointsForWord_bounds (w : List Nat) (h : IsWord w) :
    0 ≤ pointsForWord (encodeWord w) ∧
    pointsForWord (encodeWord w) ≤ 2 * w.length ∧
    (pointsForWord (encodeWord w) = 2 * w.length ↔ ∀ cp ∈ w, cp ∉ vowels10) := by
  rw [pointsForWord_encodeWord w h]
  exact ⟨Nat.zero_le _, (sum_charScore_le w).1, (sum_charScore_le w).2⟩

/-- Witness for C4 at the word "test". -/
theorem pointsForWord_bounds_witness :
    IsWord [116, 101, 115, 116] ∧
      pointsForWord (encodeWord [116, 101, 115, 116]) ≤ 2 * ([116, 101, 115, 116] : List Nat).length :=
  ⟨by decide, (pointsForWord_bounds [116, 101, 115, 116] (by decide)).2.1⟩

/-- C5: `pointsForWord "test"` returns exactly 7, the characters scoring
t = 2, e = 1, s = 2, t = 2. -/
theorem pointsForWord_test_eq_seven :
    pointsForWord (encodeWord [116, 101, 115, 116]) = 7 ∧
      pointsForWord (encodeWord [116]) = 2 ∧ pointsForWord (encodeWord [101]) = 1 ∧
      pointsForWord (encodeWord [115]) = 2 := by
  decide

/-- C6: `pointsForWord` applied to the empty sequence of characters
returns 0. -/
theorem pointsForWord_empty_eq_zero :
    pointsForWord (encodeWord []) = 0 ∧ pointsForWord [] = 0 := by
  decide

/-- C7: every character that is not one of the ten vowel code points —
in particular digits, punctuation and whitespace — contributes 2 points,
the same as a consonant; in particular `pointsForWord "a1" = 3`. -/
theorem pointsForWord_nonvowel_char_two (cp : Nat) (h1 : cp < 0x110000)
    (h2 : ¬(0xD800 ≤ cp ∧ cp ≤ 0xDFFF)) (h3 : cp ∉ vowels10) :
    pointsForWord (encodeWord [cp]) = 2 ∧ pointsForWord (encodeWord [97, 49]) = 3 := by
  refine ⟨?_, by decide⟩
  have hw : IsWord [cp] := fun c hc => by
    have hceq := List.mem_singleton.mp hc
    subst hceq
    exact ⟨h1, h2⟩
  rw [pointsForWord_encodeWord _ hw]
  simp [charScore, h3]

/-- Witness for C7 at the digit character "1". -/
theorem pointsForWord_nonvowel_char_two_witness :
    (49 : Nat) ∉ vowels10 ∧ pointsForWord (encodeWord [49]) = 2 :=
  ⟨by decide, (pointsForWord_nonvowel_char_two 49 (by decide) (by decide) (by decide)).1⟩

/-- C8: `pointsForWord` is total on code-unit sequences — it returns a
natural number for every input and never fails — and it is deterministic:
two calls with equal inputs return equal results.  (The embedding is a
pure function, so freedom from side effects holds by construction.) -/
theorem pointsForWord_total_deterministic (s t : List Nat) (h : s = t) :
    (∃ n : Nat, pointsForWord s = n) ∧ pointsForWord s = pointsForWord t :=
  ⟨⟨pointsForWord s, rfl⟩, by rw [h]⟩

/-- Witness for C8 at the word "t". -/
theorem pointsForWord_total_deterministic_witness :
    ([116] : List Nat) = [116] ∧
      ((∃ n : Nat, pointsForWord [116] = n) ∧
        pointsForWord ([116] : List Nat) = pointsForWord [116]) :=
  ⟨rfl, pointsForWord_total_deterministic [116] [116] rfl⟩

/-- C9: `pointsForWord` iterates by Unicode code point, not by UTF-16 code
unit: a single supplementary-plane character (stored as a surrogate pair)
is classified once and contributes exactly 2 points, so the score is
strictly below twice the string's UTF-16 length. -/
theorem pointsForWord_supplementary_two (cp : Nat) (h1 : 0x10000 ≤ cp)
    (h2 : cp < 0x110000) :
    pointsForWord (utf16Encode cp) = 2 ∧ (utf16Encode cp).length = 2 ∧
      pointsForWord (utf16Encode cp) < 2 * (utf16Encode cp).length := by
  have hfalse : vowelRegexTest (utf16Encode cp) = false := by
    rw [Bool.eq_false_iff]
    intro htrue
    have := (vowelRegexTest_utf16 cp h2).mp htrue
    simp only [vowels10, List.mem_cons, List.not_mem_nil, or_false] at this
    omega
  have hlen : (utf16Encode cp).length = 2 := by
    rw [utf16Encode, if_neg (by omega)]
    rfl
  have hpts : pointsForWord (utf16Encode cp) = 2 := by
    rw [utf16Encode, if_neg (by omega)] at hfalse ⊢
    unfold pointsForWord
    rw [forOf_surrogate_pair _ _ _
      (by simp only [isHighSurrogate, decide_eq_true_eq]; omega)
      (by simp only [isLowSurrogate, decide_eq_true_eq]; omega)]
    simp [forOf, hfalse]
  exact ⟨hpts, hlen, by rw [hpts, hlen]; omega⟩

/-- Witness for C9 at U+1F600 (an emoji). -/
theorem pointsForWord_supplementary_two_witness :
    0x10000 ≤ 0x1F600 ∧ pointsForWord (utf16Encode 0x1F600) = 2 ∧
      (utf16Encode 0x1F600).length = 2 ∧
      pointsForWord (utf16Encode 0x1F600) < 2 * (utf16Encode 0x1F600).length :=
  ⟨by decide, pointsForWord_supplementary_two 0x1F600 (by decide) (by decide)⟩

/-- C10: exactly the ten code points a, e, i, o, u, A, E, I, O, U score 1;
every other Unicode character scores 2, including accented vowels such as
"é" (U+00E9) and "À" (U+00C0). -/
theorem pointsForWord_vowels10_exactly (cp : Nat) (h1 : cp < 0x110000)
    (h2 : ¬(0xD800 ≤ cp ∧ cp ≤ 0xDFFF)) :
    pointsForWord (encodeWord [cp]) = (if cp ∈ vowels10 then 1 else 2) ∧
      pointsForWord (encodeWord [0xE9]) = 2 ∧ pointsForWord (encodeWord [0xC0]) = 2 := by
  refine ⟨?_, by decide, by decide⟩
  have hw : IsWord [cp] := fun c hc => by
    have hceq := List.mem_singleton.mp hc
    subst hceq
    exact ⟨h1, h2⟩
  rw [pointsForWord_encodeWord _ hw]
  simp [charScore]

/-- Witness for C10 at the character "a". -/
theorem pointsForWord_vowels10_exactly_witness :
    (97 : Nat) < 0x110000 ∧
      pointsForWord (encodeWord [97]) = (if (97 : Nat) ∈ vowels10 then 1 else 2) :=
  ⟨by decide, (pointsForWord_vowels10_exactly 97 (by decide) (by decide)).1⟩
